import Mathlib

/-!
Verification of the contfrac library (continued fractions and convergents).

The Python source is shallowly embedded: Python `int` becomes `ℤ`,
`fractions.Fraction` and `float` values become `ℚ` (float arithmetic is
modelled exactly over the rationals; the decimal rounding `round(x, 10)` is
modelled as round-half-to-even at the 10th decimal digit, CPython's
convention), generators are drained into lists, and raised exceptions become
explicit error values.
-/

namespace Contfrac

/-- Python exceptions that the library can raise. -/
inductive PyError
  | valueError
  | typeError
  | zeroDivisionError
deriving DecidableEq

/-- The recognized input representations of `continued_fraction`, plus a
catch-all `other` for every unrecognized type. A Python `fractions.Fraction`
is an exact rational in lowest terms with positive denominator, hence `ℚ`;
its `numerator` and `denominator` attributes are `Rat.num` and `Rat.den`. -/
inductive NumericInput
  | int (n : ℤ)
  | float (x : ℚ)
  | fraction (q : ℚ)
  | pair (num den : ℤ)
  | other
deriving DecidableEq

/-- `__int_cont_frac(num, den, max_amount)`: the Euclidean-style loop
`while den != 0 and amount < max_amount`, with `integer_part = num // den`
(Python floor division, `Int.fdiv`), `num -= integer_part * den` (leaving the
Python modulo `Int.fmod`), then the swap `num, den = den, num`. -/
def intContFrac : ℤ → ℤ → ℕ → List ℤ
  | _, _, 0 => []
  | num, den, fuel + 1 =>
    if den = 0 then []
    else num.fdiv den :: intContFrac den (num.fmod den) fuel

/-- Absolute value on `ℚ`, written out so the kernel evaluates it directly. -/
def ratAbs (q : ℚ) : ℚ := if q < 0 then -q else q

/-- Floor of a rational, as floor division of numerator by denominator. -/
def ratFloor (q : ℚ) : ℤ := q.num.fdiv q.den

/-- Round to the nearest integer with ties to even, the convention CPython
uses when rounding floats (here in the exact-rational model of the float
branch). -/
def roundHalfEven (q : ℚ) : ℤ :=
  let f := ratFloor q
  if q - f < 1 / 2 then f
  else if 1 / 2 < q - f then f + 1
  else if f % 2 = 0 then f else f + 1

/-- `round(x, 10)`: rounding at the 10th decimal digit. -/
def pyRound10 (q : ℚ) : ℚ := (roundHalfEven (q * 10 ^ 10) : ℚ) / 10 ^ 10

/-- Python `int()` applied to a number: truncation toward zero. -/
def pyInt (q : ℚ) : ℤ := if 0 ≤ q then ratFloor q else -ratFloor (-q)

/-- The stopping tolerance `10 ** -10` of the float branch. -/
def absTol : ℚ := 1 / 10 ^ 10

/-- Loop of `__float_cont_frac` in the exact-rational model of float
arithmetic: `while not abs(fractional_part) <= abs_tol and amount < max`,
with `integer_part = int(round(real_number, 10))`,
`fractional_part = real_number - integer_part`,
`real_number = 1.0 / fractional_part`, then `yield integer_part`.
The reciprocal is computed before the yield, so when `fractional_part`
is exactly zero the division raises `ZeroDivisionError` before that
iteration's coefficient is yielded: the returned flag is `true` exactly
when draining the generator raises `ZeroDivisionError`. -/
def floatLoop : ℚ → ℚ → ℕ → List ℤ × Bool
  | _, _, 0 => ([], false)
  | real, frac, fuel + 1 =>
    if ratAbs frac ≤ absTol then ([], false)
    else
      let ip := pyInt (pyRound10 real)
      let f := real - ip
      if f = 0 then ([], true)
      else
        let rest := floatLoop (1 / f) f fuel
        (ip :: rest.1, rest.2)

/-- `__float_cont_frac(real_number, max_amount)`: the fractional part starts
at the dummy value `42`, so the first iteration always runs. -/
def floatContFrac (realNumber : ℚ) (maxAmount : ℕ) : List ℤ × Bool :=
  floatLoop realNumber 42 maxAmount

/-- `continued_fraction(x, maxlen=30)`: checks `maxlen <= 0` first, then
dispatches on the input type; an `int` input is passed with `max_amount=1`.
The `ok` payload is the fully drained coefficient list together with the
flag telling whether draining raised `ZeroDivisionError`. -/
def continued_fraction (x : NumericInput) (maxlen : ℤ) :
    Except PyError (List ℤ × Bool) :=
  if maxlen ≤ 0 then .error .valueError
  else
    match x with
    | .int n => .ok (intContFrac n 1 1, false)
    | .float q => .ok (floatContFrac q maxlen.toNat)
    | .fraction q => .ok (intContFrac q.num q.den maxlen.toNat, false)
    | .pair num den => .ok (intContFrac num den maxlen.toNat, false)
    | .other => .error .typeError

/-- One step of `evaluate`'s loop: `fraction = 1 / (coefficient + fraction)`.
`none` models a raised `ZeroDivisionError`. -/
def evalStep (acc : Option ℚ) (c : ℚ) : Option ℚ :=
  acc.bind fun a => if c + a = 0 then none else some (1 / (c + a))

/-- `evaluate(cont_frac)`: `0` on the empty sequence, otherwise the fold of
`evalStep` over `reversed(cont_frac[1:])` starting from `0`, followed by
adding the first coefficient. -/
def evaluate : List ℚ → Option ℚ
  | [] => some 0
  | c :: rest => (rest.reverse.foldl evalStep (some 0)).map (fun a => c + a)

/-- The running accumulator of `evaluate` after processing a tail backward
(from the last coefficient down). -/
def tailEval (l : List ℚ) : Option ℚ :=
  l.foldr (fun c acc => evalStep acc c) (some 0)

/-- `evaluate` on integer coefficient lists (as produced by the generator). -/
def evaluateZ (l : List ℤ) : Option ℚ := evaluate (l.map fun n : ℤ => (n : ℚ))

/-- `arithmetical_expr(cont_frac, with_spaces=True, force_floats=False)`:
stringifies each coefficient, joins them with
`(' + ' or '+') + ('1.0/(' or '1/(')` and appends one closing parenthesis
per term after the first (Python's `')' * i` with `i` the last index of the
enumeration, which stays `0` for an empty sequence). -/
def arithmetical_expr (l : List ℤ) (withSpaces forceFloats : Bool) : String :=
  let parts := l.map fun c => toString c
  let joiner := (if withSpaces then " + " else "+") ++
    (if forceFloats then "1.0/(" else "1/(")
  String.intercalate joiner parts ++ String.mk (List.replicate (l.length - 1) ')')

/-- The rolling-state loop of `convergents`: for each coefficient `c` yield
`(c * numerator_1_ago + numerator_2_ago, c * denominator_1_ago +
denominator_2_ago)` and shift the state. -/
def convFold : List ℤ → ℤ → ℤ → ℤ → ℤ → List (ℤ × ℤ)
  | [], _, _, _, _ => []
  | c :: rest, n2, n1, d2, d1 =>
    (c * n1 + n2, c * d1 + d2) :: convFold rest n1 (c * n1 + n2) d1 (c * d1 + d2)

/-- The convergent pairs of a coefficient list, seeded with numerator state
`(0, 1)` and denominator state `(1, 0)`. -/
def convergentsFromCoeffs (l : List ℤ) : List (ℤ × ℤ) := convFold l 0 1 1 0

/-- `convergents(x, max_grade=10)`: drives the rolling recurrence over
`continued_fraction(x, maxlen=max_grade + 1)`. -/
def convergents (x : NumericInput) (maxGrade : ℤ) :
    Except PyError (List (ℤ × ℤ) × Bool) :=
  match continued_fraction x (maxGrade + 1) with
  | .error e => .error e
  | .ok (coeffs, err) => .ok (convergentsFromCoeffs coeffs, err)

/-- `convergent(x, grade)`: drains `convergents(x, max_grade=grade)` in a
`for` loop and returns the last yielded pair, or Python's `None` (modelled
as `none`) when nothing was yielded; an exception raised while draining
propagates. -/
def convergent (x : NumericInput) (grade : ℤ) :
    Except PyError (Option (ℤ × ℤ)) :=
  match convergents x grade with
  | .error e => .error e
  | .ok (_, true) => .error .zeroDivisionError
  | .ok (l, false) => .ok l.getLast?

/-- The float-branch generator exactly as the specification words it: each
iteration computes `integer_part = int(round(real_number, 10))` and
`fractional_part = real_number - integer_part`, yields `integer_part`, and
stops as soon as `|fractional_part| <= 1e-10` or `maxlen` terms have been
produced, raising nothing. Used only to compare the source's `floatLoop`
against the specified behaviour. -/
def specFloatGen : ℚ → ℕ → List ℤ
  | _, 0 => []
  | real, fuel + 1 =>
    let ip := pyInt (pyRound10 real)
    let f := real - ip
    if ratAbs f ≤ absTol then [ip]
    else ip :: specFloatGen (1 / f) fuel

/-- The continuant recurrence with explicit seeds: `contRec c s0 s1 0 = s0`,
`contRec c s0 s1 1 = s1`, and `contRec c s0 s1 (k+2) = c_k * contRec c s0 s1
(k+1) + contRec c s0 s1 k`. With seeds `(0, 1)` it gives the convergent
numerators, with `(1, 0)` the denominators. -/
def contRec (c : List ℤ) (s0 s1 : ℤ) : ℕ → ℤ
  | 0 => s0
  | 1 => s1
  | k + 2 => c.getD k 0 * contRec c s0 s1 (k + 1) + contRec c s0 s1 k

deriving instance DecidableEq for Except

/-! ### Helper lemmas -/

theorem intContFrac_den_zero (num : ℤ) (f : ℕ) : intContFrac num 0 f = [] := by
  cases f <;> simp [intContFrac]

theorem intContFrac_succ (num den : ℤ) (f : ℕ) (h : den ≠ 0) :
    intContFrac num den (f + 1) =
      num.fdiv den :: intContFrac den (num.fmod den) f := by
  simp [intContFrac, h]

theorem evaluate_cons (c : ℚ) (rest : List ℚ) :
    evaluate (c :: rest) = (tailEval rest).map (fun a => c + a) := by
  simp [evaluate, tailEval, List.foldl_reverse]

theorem evaluate_singleton (c : ℚ) : evaluate [c] = some c := by
  simp [evaluate]

theorem tailEval_cons (c : ℚ) (l : List ℚ) :
    tailEval (c :: l) = evalStep (tailEval l) c := rfl

theorem tailEval_of_evaluate (l : List ℚ) (v : ℚ) (hne : l ≠ [])
    (h : evaluate l = some v) (hv : v ≠ 0) : tailEval l = some (1 / v) := by
  cases l with
  | nil => exact absurd rfl hne
  | cons d l' =>
    rw [evaluate_cons] at h
    cases ht : tailEval l' with
    | none => rw [ht] at h; simp at h
    | some a =>
      rw [ht] at h
      simp only [Option.map_some'] at h
      have hda : d + a = v := by injection h
      rw [tailEval_cons, ht]
      simp only [evalStep, Option.some_bind]
      rw [hda]
      simp [hv]

theorem evaluate_cons_of_tail (c : ℚ) (l : List ℚ) (v : ℚ) (hne : l ≠ [])
    (h : evaluate l = some v) (hv : v ≠ 0) :
    evaluate (c :: l) = some (c + 1 / v) := by
  rw [evaluate_cons, tailEval_of_evaluate l v hne h hv]
  rfl

theorem intContFrac_stable_succ :
    ∀ (N : ℕ) (num den : ℤ),
      intContFrac num den N = intContFrac num den (N + 1) →
      intContFrac num den (N + 1) = intContFrac num den (N + 2) := by
  intro N
  induction N with
  | zero =>
    intro num den h
    by_cases hd : den = 0
    · subst hd
      simp [intContFrac_den_zero]
    · rw [intContFrac_succ _ _ _ hd] at h
      exact absurd h (by simp [intContFrac])
  | succ K ih =>
    intro num den h
    by_cases hd : den = 0
    · subst hd
      simp [intContFrac_den_zero]
    · rw [intContFrac_succ _ _ _ hd, intContFrac_succ _ _ _ hd] at h
      rw [intContFrac_succ _ _ _ hd, intContFrac_succ _ _ _ hd]
      have htail := (List.cons.injEq _ _ _ _).mp h |>.2
      exact congrArg _ (ih den (num.fmod den) htail)

theorem intContFrac_stable (num den : ℤ) (N : ℕ)
    (h : intContFrac num den N = intContFrac num den (N + 1)) :
    ∀ M, N ≤ M → intContFrac num den M = intContFrac num den N := by
  have key : ∀ M, N ≤ M →
      intContFrac num den M = intContFrac num den N ∧
      intContFrac num den M = intContFrac num den (M + 1) := by
    intro M hM
    induction M, hM using Nat.le_induction with
    | base => exact ⟨rfl, h⟩
    | succ M hM ih =>
      refine ⟨ih.2.symm.trans ih.1, ?_⟩
      exact intContFrac_stable_succ M num den ih.2
  exact fun M hM => (key M hM).1

theorem intContFrac_evaluate :
    ∀ (N : ℕ) (num den : ℤ), den ≠ 0 →
      intContFrac num den N = intContFrac num den (N + 1) →
      evaluateZ (intContFrac num den N) = some ((num : ℚ) / (den : ℚ)) := by
  intro N
  induction N with
  | zero =>
    intro num den hd h
    rw [intContFrac_succ _ _ _ hd] at h
    exact absurd h (by simp [intContFrac])
  | succ K ih =>
    intro num den hd h
    have hid : (den : ℚ) * ((num.fdiv den : ℤ) : ℚ) + ((num.fmod den : ℤ) : ℚ) =
        (num : ℚ) := by
      exact_mod_cast congrArg (fun z : ℤ => (z : ℚ)) (Int.fdiv_add_fmod num den)
    rw [intContFrac_succ _ _ _ hd, intContFrac_succ _ _ _ hd] at h
    have htail := (List.cons.injEq _ _ _ _).mp h |>.2
    rw [intContFrac_succ _ _ _ hd]
    by_cases hr : num.fmod den = 0
    · rw [hr, intContFrac_den_zero]
      rw [hr] at hid
      unfold evaluateZ
      rw [List.map_cons, List.map_nil, evaluate_singleton]
      congr 1
      rw [eq_div_iff (Int.cast_ne_zero.mpr hd)]
      push_cast at hid ⊢
      linarith
    · cases K with
      | zero =>
        rw [intContFrac_succ _ _ _ hr] at htail
        exact absurd htail (by simp [intContFrac])
      | succ K' =>
        have hval := ih den (num.fmod den) hr htail
        have hnonempty :
            (intContFrac den (num.fmod den) (K' + 1)).map (fun n : ℤ => (n : ℚ)) ≠
              [] := by
          rw [intContFrac_succ _ _ _ hr]
          simp
        have hv : (den : ℚ) / ((num.fmod den : ℤ) : ℚ) ≠ 0 :=
          div_ne_zero (Int.cast_ne_zero.mpr hd) (Int.cast_ne_zero.mpr hr)
        unfold evaluateZ at hval ⊢
        rw [List.map_cons]
        rw [evaluate_cons_of_tail _ _ _ hnonempty hval hv]
        congr 1
        rw [one_div_div]
        have hdq : (den : ℚ) ≠ 0 := by exact_mod_cast hd
        field_simp
        linarith [hid]

theorem floatLoop_stop (real frac : ℚ) (fuel : ℕ) (h : ratAbs frac ≤ absTol) :
    floatLoop real frac (fuel + 1) = ([], false) := by
  simp [floatLoop, h]

theorem floatLoop_err (real frac : ℚ) (fuel : ℕ) (h1 : ¬ ratAbs frac ≤ absTol)
    (h2 : real - pyInt (pyRound10 real) = 0) :
    floatLoop real frac (fuel + 1) = ([], true) := by
  simp [floatLoop, h1, h2]

theorem floatLoop_step (real frac : ℚ) (fuel : ℕ) (h1 : ¬ ratAbs frac ≤ absTol)
    (h2 : real - pyInt (pyRound10 real) ≠ 0) :
    floatLoop real frac (fuel + 1) =
      (pyInt (pyRound10 real) ::
          (floatLoop (1 / (real - pyInt (pyRound10 real)))
            (real - pyInt (pyRound10 real)) fuel).1,
        (floatLoop (1 / (real - pyInt (pyRound10 real)))
          (real - pyInt (pyRound10 real)) fuel).2) := by
  simp [floatLoop, h1, h2]

theorem floatLoop_small (real frac : ℚ) (fuel : ℕ) (h : ratAbs frac ≤ absTol) :
    floatLoop real frac fuel = ([], false) := by
  cases fuel with
  | zero => rfl
  | succ fuel => exact floatLoop_stop real frac fuel h

theorem floatLoop_refines_spec :
    ∀ (fuel : ℕ) (real frac : ℚ), ¬ ratAbs frac ≤ absTol →
      (floatLoop real frac fuel).2 = false →
      (floatLoop real frac fuel).1 = specFloatGen real fuel := by
  intro fuel
  induction fuel with
  | zero => intro real frac _ _; rfl
  | succ fuel ih =>
    intro real frac h1 hok
    by_cases hf : real - pyInt (pyRound10 real) = 0
    · rw [floatLoop_err real frac fuel h1 hf] at hok
      exact absurd hok (by simp)
    · rw [floatLoop_step real frac fuel h1 hf] at hok ⊢
      by_cases htol : ratAbs (real - pyInt (pyRound10 real)) ≤ absTol
      · rw [floatLoop_small _ _ fuel htol]
        simp only [specFloatGen]
        rw [if_pos htol]
      · simp only [specFloatGen]
        rw [if_neg htol]
        simp only [List.cons.injEq, true_and]
        exact ih _ _ htol hok

theorem floatContFrac_two : floatContFrac 2 30 = ([], true) := by
  have h1 : ¬ ratAbs (42 : ℚ) ≤ absTol := by norm_num [ratAbs, absTol]
  have h2 : (2 : ℚ) - pyInt (pyRound10 2) = 0 := by
    norm_num [pyInt, pyRound10, roundHalfEven, ratFloor, Int.fdiv_eq_ediv]
  rw [floatContFrac, show (30 : ℕ) = 29 + 1 from rfl, floatLoop_err _ _ _ h1 h2]

theorem floatContFrac_half : floatContFrac (1 / 2) 30 = ([0], true) := by
  have h1 : ¬ ratAbs (42 : ℚ) ≤ absTol := by norm_num [ratAbs, absTol]
  have hip : pyInt (pyRound10 (1 / 2)) = 0 := by
    norm_num [pyInt, pyRound10, roundHalfEven, ratFloor, Int.fdiv_eq_ediv]
  have h2 : (1 / 2 : ℚ) - pyInt (pyRound10 (1 / 2)) ≠ 0 := by rw [hip]; norm_num
  rw [floatContFrac, show (30 : ℕ) = 29 + 1 from rfl, floatLoop_step _ _ _ h1 h2]
  have e1 : (1 : ℚ) / ((1 / 2 : ℚ) - pyInt (pyRound10 (1 / 2))) = 2 := by
    rw [hip]; norm_num
  have e2 : (1 / 2 : ℚ) - pyInt (pyRound10 (1 / 2)) = 1 / 2 := by rw [hip]; norm_num
  rw [e1, e2, hip]
  have h1' : ¬ ratAbs ((1 : ℚ) / 2) ≤ absTol := by norm_num [ratAbs, absTol]
  have h2' : (2 : ℚ) - pyInt (pyRound10 2) = 0 := by
    norm_num [pyInt, pyRound10, roundHalfEven, ratFloor, Int.fdiv_eq_ediv]
  rw [show (29 : ℕ) = 28 + 1 from rfl, floatLoop_err _ _ _ h1' h2']

theorem floatContFrac_example : floatContFrac (27 / 32) 3 = ([0, 1, 5], false) := by
  have h1 : ¬ ratAbs (42 : ℚ) ≤ absTol := by norm_num [ratAbs, absTol]
  have hip1 : pyInt (pyRound10 (27 / 32)) = 0 := by
    norm_num [pyInt, pyRound10, roundHalfEven, ratFloor, Int.fdiv_eq_ediv]
  have h2 : (27 / 32 : ℚ) - pyInt (pyRound10 (27 / 32)) ≠ 0 := by rw [hip1]; norm_num
  rw [floatContFrac, show (3 : ℕ) = 2 + 1 from rfl, floatLoop_step _ _ _ h1 h2]
  have e1 : (1 : ℚ) / ((27 / 32 : ℚ) - pyInt (pyRound10 (27 / 32))) = 32 / 27 := by
    rw [hip1]; norm_num
  have e2 : (27 / 32 : ℚ) - pyInt (pyRound10 (27 / 32)) = 27 / 32 := by
    rw [hip1]; norm_num
  rw [e1, e2, hip1]
  have h1' : ¬ ratAbs ((27 : ℚ) / 32) ≤ absTol := by norm_num [ratAbs, absTol]
  have hip2 : pyInt (pyRound10 (32 / 27)) = 1 := by
    norm_num [pyInt, pyRound10, roundHalfEven, ratFloor, Int.fdiv_eq_ediv]
  have h2' : (32 / 27 : ℚ) - pyInt (pyRound10 (32 / 27)) ≠ 0 := by rw [hip2]; norm_num
  rw [show (2 : ℕ) = 1 + 1 from rfl, floatLoop_step _ _ _ h1' h2']
  have e1' : (1 : ℚ) / ((32 / 27 : ℚ) - pyInt (pyRound10 (32 / 27))) = 27 / 5 := by
    rw [hip2]; norm_num
  have e2' : (32 / 27 : ℚ) - pyInt (pyRound10 (32 / 27)) = 5 / 27 := by
    rw [hip2]; norm_num
  rw [e1', e2', hip2]
  have h1'' : ¬ ratAbs ((5 : ℚ) / 27) ≤ absTol := by norm_num [ratAbs, absTol]
  have hip3 : pyInt (pyRound10 (27 / 5)) = 5 := by
    norm_num [pyInt, pyRound10, roundHalfEven, ratFloor, Int.fdiv_eq_ediv]
  have h2'' : (27 / 5 : ℚ) - pyInt (pyRound10 (27 / 5)) ≠ 0 := by rw [hip3]; norm_num
  rw [show (1 : ℕ) = 0 + 1 from rfl, floatLoop_step _ _ _ h1'' h2'']
  rw [hip3]
  simp [floatLoop]

theorem intContFrac_length :
    ∀ (fuel : ℕ) (num den : ℤ), (intContFrac num den fuel).length ≤ fuel := by
  intro fuel
  induction fuel with
  | zero => intro num den; simp [intContFrac]
  | succ fuel ih =>
    intro num den
    by_cases hd : den = 0
    · simp [hd, intContFrac_den_zero]
    · rw [intContFrac_succ _ _ _ hd]
      simpa using Nat.succ_le_succ (ih den (num.fmod den))

theorem floatLoop_length :
    ∀ (fuel : ℕ) (real frac : ℚ), (floatLoop real frac fuel).1.length ≤ fuel := by
  intro fuel
  induction fuel with
  | zero => intro real frac; simp [floatLoop]
  | succ fuel ih =>
    intro real frac
    by_cases h1 : ratAbs frac ≤ absTol
    · simp [floatLoop_stop _ _ _ h1]
    · by_cases h2 : real - pyInt (pyRound10 real) = 0
      · simp [floatLoop_err _ _ _ h1 h2]
      · rw [floatLoop_step _ _ _ h1 h2]
        simpa using Nat.succ_le_succ (ih _ _)

theorem continued_fraction_length (x : NumericInput) (L : ℤ) (coeffs : List ℤ)
    (err : Bool) (h : continued_fraction x L = .ok (coeffs, err)) :
    coeffs.length ≤ L.toNat := by
  unfold continued_fraction at h
  by_cases hL : L ≤ 0
  · rw [if_pos hL] at h
    exact absurd h (by simp)
  · rw [if_neg hL] at h
    have hL1 : 1 ≤ L.toNat := by omega
    cases x with
    | int n =>
      obtain ⟨h1, -⟩ : intContFrac n 1 1 = coeffs ∧ false = err := by simpa using h
      rw [← h1]
      exact le_trans (intContFrac_length 1 n 1) hL1
    | float q =>
      obtain ⟨h1, -⟩ : (floatContFrac q L.toNat).1 = coeffs ∧
          (floatContFrac q L.toNat).2 = err := by
        simpa [Prod.ext_iff] using h
      rw [← h1]
      exact floatLoop_length L.toNat q 42
    | fraction q =>
      obtain ⟨h1, -⟩ : intContFrac q.num q.den L.toNat = coeffs ∧ false = err := by
        simpa using h
      rw [← h1]
      exact intContFrac_length L.toNat q.num q.den
    | pair a b =>
      obtain ⟨h1, -⟩ : intContFrac a b L.toNat = coeffs ∧ false = err := by
        simpa using h
      rw [← h1]
      exact intContFrac_length L.toNat a b
    | other => exact absurd h (by simp)

theorem convFold_length :
    ∀ (l : List ℤ) (n2 n1 d2 d1 : ℤ), (convFold l n2 n1 d2 d1).length = l.length := by
  intro l
  induction l with
  | nil => intros; rfl
  | cons c rest ih => intro n2 n1 d2 d1; simp [convFold, ih]

theorem convergentsFromCoeffs_eq_nil (l : List ℤ) :
    convergentsFromCoeffs l = [] ↔ l = [] := by
  cases l <;> simp [convergentsFromCoeffs, convFold]

theorem contRec_two (c : List ℤ) (s0 s1 : ℤ) (k : ℕ) :
    contRec c s0 s1 (k + 2) =
      c.getD k 0 * contRec c s0 s1 (k + 1) + contRec c s0 s1 k := by
  rfl

theorem contRec_cons (a : ℤ) (c : List ℤ) (s0 s1 : ℤ) :
    ∀ k, contRec (a :: c) s0 s1 (k + 1) = contRec c s1 (a * s1 + s0) k := by
  intro k
  induction k using Nat.strong_induction_on with
  | _ k ih =>
    rcases k with _ | _ | k
    · rfl
    · rw [contRec_two]
      simp [contRec]
    · rw [show k + 2 + 1 = (k + 1) + 2 from rfl]
      rw [contRec_two (a :: c) s0 s1 (k + 1), contRec_two c s1 (a * s1 + s0) k]
      rw [ih (k + 1) (by omega), ih k (by omega)]
      simp

theorem convFold_eq :
    ∀ (l : List ℤ) (n2 n1 d2 d1 : ℤ),
      convFold l n2 n1 d2 d1 =
        (List.range l.length).map
          (fun i => (contRec l n2 n1 (i + 2), contRec l d2 d1 (i + 2))) := by
  intro l
  induction l with
  | nil => intros; rfl
  | cons c rest ih =>
    intro n2 n1 d2 d1
    simp only [convFold, List.length_cons, List.range_succ_eq_map, List.map_cons,
      List.map_map]
    congr 1
    rw [ih]
    refine List.map_congr_left ?_
    intro i _
    simp only [Function.comp_apply, Nat.succ_eq_add_one]
    rw [show i + 1 + 2 = (i + 2) + 1 from rfl, contRec_cons, contRec_cons]

theorem tailEval_none_iff :
    ∀ l : List ℚ, tailEval l = none ↔
      ∃ mid c suf a, l = mid ++ c :: suf ∧ tailEval suf = some a ∧ c + a = 0 := by
  intro l
  induction l with
  | nil =>
    constructor
    · intro h; exact absurd h (by simp [tailEval])
    · rintro ⟨mid, c, suf, a, heq, -, -⟩
      exact absurd heq (by cases mid <;> simp)
  | cons d rest ih =>
    rw [tailEval_cons]
    cases ht : tailEval rest with
    | none =>
      simp only [evalStep, Option.none_bind, true_iff]
      obtain ⟨mid, c, suf, a, heq, hsuf, hz⟩ := ih.mp ht
      exact ⟨d :: mid, c, suf, a, by rw [heq]; rfl, hsuf, hz⟩
    | some a =>
      by_cases hz : d + a = 0
      · simp only [evalStep, Option.some_bind, if_pos hz, true_iff]
        exact ⟨[], d, rest, a, rfl, ht, hz⟩
      · simp only [evalStep, Option.some_bind, if_neg hz]
        constructor
        · intro h; exact absurd h (by simp)
        · rintro ⟨mid, c, suf, a', heq, hsuf, hz'⟩
          exfalso
          cases mid with
          | nil =>
            simp only [List.nil_append, List.cons.injEq] at heq
            obtain ⟨hdc, hrest⟩ := heq
            rw [← hrest] at hsuf
            rw [ht] at hsuf
            injection hsuf with ha
            exact hz (by rw [hdc, ha]; exact hz')
          | cons m mid' =>
            simp only [List.cons_append, List.cons.injEq] at heq
            obtain ⟨-, hrest⟩ := heq
            have : tailEval rest = none := ih.mpr ⟨mid', c, suf, a', hrest, hsuf, hz'⟩
            rw [ht] at this
            exact absurd this (by simp)

/-! ### Claims -/

/-- C1: for every exact-rational input `num/den` (`den ≠ 0`, as a pair or a
Fraction) and every `maxlen N` large enough that the coefficient generation
terminates naturally (expressed as the output being stable from `N` to
`N + 1`), evaluating the generated coefficients reproduces `num/den` exactly,
and the generated sequence is identical for every larger bound. -/
theorem c1_rational_roundtrip (num den : ℤ) (N : ℕ) (hden : den ≠ 0)
    (hterm : intContFrac num den N = intContFrac num den (N + 1)) :
    evaluateZ (intContFrac num den N) = some ((num : ℚ) / (den : ℚ))
    ∧ (∀ M, N ≤ M → intContFrac num den M = intContFrac num den N)
    ∧ (∀ L : ℤ, 0 < L →
        continued_fraction (.pair num den) L =
          .ok (intContFrac num den L.toNat, false))
    ∧ (∀ (q : ℚ) (L : ℤ),
        continued_fraction (.fraction q) L =
          continued_fraction (.pair q.num q.den) L) := by
  refine ⟨intContFrac_evaluate N num den hden hterm,
    intContFrac_stable num den N hterm, ?_, ?_⟩
  · intro L hL
    simp [continued_fraction, show ¬ L ≤ 0 from by omega]
  · intro q L
    by_cases hL : L ≤ 0 <;> simp [continued_fraction, hL]

/-- Witness for C1 at `649/200` with `N = 4` (the sequence `[3, 4, 12, 4]`
terminates naturally within 4 terms). -/
theorem c1_rational_roundtrip_witness :
    evaluateZ (intContFrac 649 200 4) = some ((649 : ℚ) / (200 : ℚ))
    ∧ (∀ M, 4 ≤ M → intContFrac 649 200 M = intContFrac 649 200 4)
    ∧ (∀ L : ℤ, 0 < L →
        continued_fraction (.pair 649 200) L =
          .ok (intContFrac 649 200 L.toNat, false))
    ∧ (∀ (q : ℚ) (L : ℤ),
        continued_fraction (.fraction q) L =
          continued_fraction (.pair q.num q.den) L) :=
  c1_rational_roundtrip 649 200 4 (by decide) (by decide)

/-- C2 is false as stated: for the input `3` and grade `5`, the coefficient
sequence has a single term (fewer than `grade + 1 = 6`), yet `convergent`
neither fails nor returns an empty/sentinel result — it silently returns the
grade-0 convergent `(3, 1)`. -/
theorem c2_counterexample :
    continued_fraction (.int 3) 6 = .ok ([3], false)
    ∧ ([3] : List ℤ).length < 5 + 1
    ∧ convergent (.int 3) 5 = .ok (some (3, 1))
    ∧ convergent (.int 3) 5 ≠ .ok none
    ∧ ∀ e : PyError, convergent (.int 3) 5 ≠ .error e := by
  refine ⟨by decide, by decide, by decide, by decide, ?_⟩
  intro e
  cases e <;> decide

/-- C2 amended: when the coefficient sequence raises no error, `convergent`
returns the last convergent actually produced — a lower-grade convergent if
the sequence terminated early — and the sentinel `None` exactly when no
coefficient at all was produced. -/
theorem c2_last_convergent (x : NumericInput) (g : ℤ) (coeffs : List ℤ)
    (h : continued_fraction x (g + 1) = .ok (coeffs, false)) :
    convergent x g = .ok (convergentsFromCoeffs coeffs).getLast?
    ∧ ((convergentsFromCoeffs coeffs).getLast? = none ↔ coeffs = []) := by
  refine ⟨by simp [convergent, convergents, h], ?_⟩
  rw [List.getLast?_eq_none_iff, convergentsFromCoeffs_eq_nil]

/-- Witness for the amended C2 at input `3`, grade `5`. -/
theorem c2_last_convergent_witness :
    convergent (.int 3) 5 = .ok (convergentsFromCoeffs [3]).getLast?
    ∧ ((convergentsFromCoeffs [3]).getLast? = none ↔ [3] = ([] : List ℤ)) :=
  c2_last_convergent (.int 3) 5 [3] (by decide)

/-- C3 is false in its "no other error" part: draining the generator for the
float input `0.5` (`1/2`, exactly representable, every step exact) yields the
coefficient `0` and then raises `ZeroDivisionError` (the `true` flag), because
`1.0 / fractional_part` is computed on a fractional part that is exactly
zero. -/
theorem c3_counterexample :
    continued_fraction (.float (1 / 2)) 30 = .ok ([0], true) := by
  have h : ¬ (30 : ℤ) ≤ 0 := by decide
  rw [continued_fraction, if_neg h]
  exact congrArg Except.ok floatContFrac_half

/-- C3 amended: `continued_fraction` fails with `ValueError` exactly when
`maxlen ≤ 0` (this check precedes the type dispatch), with `TypeError`
exactly when `maxlen > 0` and the input is unrecognized, and the integer,
`Fraction` and pair branches never raise while draining; only the float
branch can additionally raise `ZeroDivisionError` (when a fractional part is
exactly zero). -/
theorem c3_error_classification :
    (∀ (x : NumericInput) (L : ℤ),
      continued_fraction x L = .error .valueError ↔ L ≤ 0)
    ∧ (∀ (x : NumericInput) (L : ℤ),
        continued_fraction x L = .error .typeError ↔ (0 < L ∧ x = .other))
    ∧ (∀ (n L : ℤ), 0 < L →
        continued_fraction (.int n) L = .ok (intContFrac n 1 1, false))
    ∧ (∀ (q : ℚ) (L : ℤ), 0 < L →
        continued_fraction (.fraction q) L =
          .ok (intContFrac q.num q.den L.toNat, false))
    ∧ (∀ (a b L : ℤ), 0 < L →
        continued_fraction (.pair a b) L = .ok (intContFrac a b L.toNat, false)) := by
  refine ⟨?_, ?_, ?_, ?_, ?_⟩
  · intro x L
    by_cases hL : L ≤ 0
    · simp [continued_fraction, hL]
    · cases x <;> simp [continued_fraction, hL]
  · intro x L
    by_cases hL : L ≤ 0
    · simp [continued_fraction, hL, show ¬ (0 : ℤ) < L from by omega]
    · cases x <;> simp [continued_fraction, hL, show (0 : ℤ) < L from by omega]
  · intro n L hL
    simp [continued_fraction, show ¬ L ≤ 0 from by omega]
  · intro q L hL
    simp [continued_fraction, show ¬ L ≤ 0 from by omega]
  · intro a b L hL
    simp [continued_fraction, show ¬ L ≤ 0 from by omega]

/-- Witness for the amended C3: `maxlen = 0` yields `ValueError`. -/
theorem c3_error_classification_witness :
    continued_fraction (.int 0) 0 = .error .valueError :=
  (c3_error_classification.1 (.int 0) 0).mpr (by decide)

/-- C4 is false in its "raising nothing" part: for the float input `2.0`
(every step exact in the rational model), the first iteration's fractional
part is exactly `0`, and `real_number = 1.0 / fractional_part` — computed
before the yield and before the stopping check — raises `ZeroDivisionError`,
so the generator yields nothing and raises. -/
theorem c4_counterexample :
    continued_fraction (.float 2) 30 = .ok ([], true) := by
  have h : ¬ (30 : ℤ) ≤ 0 := by decide
  rw [continued_fraction, if_neg h]
  exact congrArg Except.ok floatContFrac_two

/-- C4 amended: as long as no iteration's fractional part is exactly zero
(the no-`ZeroDivisionError` hypothesis), the float branch yields exactly the
sequence described by the specification — `integer_part =
int(round(real_number, 10))` each iteration, stopping as soon as
`|fractional_part| ≤ 1e-10` or `maxlen` terms have been produced — and never
more than `maxlen` terms. -/
theorem c4_float_branch (q : ℚ) (n : ℕ)
    (hok : (floatContFrac q n).2 = false) :
    (floatContFrac q n).1 = specFloatGen q n
    ∧ (floatContFrac q n).1.length ≤ n
    ∧ (∀ L : ℤ, 0 < L →
        continued_fraction (.float q) L = .ok (floatContFrac q L.toNat)) := by
  refine ⟨?_, floatLoop_length n q 42, ?_⟩
  · exact floatLoop_refines_spec n q 42 (by norm_num [ratAbs, absTol]) hok
  · intro L hL
    simp [continued_fraction, show ¬ L ≤ 0 from by omega]

/-- Witness for the amended C4 at `0.84375 = 27/32` with `maxlen = 3`
(the run `[0, 1, 5]` raises nothing). -/
theorem c4_float_branch_witness :
    (floatContFrac (27 / 32) 3).2 = false
    ∧ ((floatContFrac (27 / 32) 3).1 = specFloatGen (27 / 32) 3
      ∧ (floatContFrac (27 / 32) 3).1.length ≤ 3
      ∧ (∀ L : ℤ, 0 < L →
          continued_fraction (.float (27 / 32)) L =
            .ok (floatContFrac (27 / 32) L.toNat))) :=
  have h : (floatContFrac (27 / 32) 3).2 = false := by rw [floatContFrac_example]
  ⟨h, c4_float_branch (27 / 32) 3 h⟩

/-- C5: `convergents(x, max_grade)` yields, for each coefficient of
`continued_fraction(x, maxlen = max_grade + 1)` in order, the continuant
pair seeded with numerator state `(0, 1)` and denominator state `(1, 0)` —
entry `i` is `(c_i * numerator[-1] + numerator[-2], c_i * denominator[-1] +
denominator[-2])` — producing one pair per coefficient and hence at most
`max_grade + 1` pairs. -/
theorem c5_convergents_recurrence (x : NumericInput) (g : ℤ) (coeffs : List ℤ)
    (err : Bool) (h : continued_fraction x (g + 1) = .ok (coeffs, err)) :
    convergents x g = .ok (convergentsFromCoeffs coeffs, err)
    ∧ convergentsFromCoeffs coeffs =
        (List.range coeffs.length).map
          (fun i => (contRec coeffs 0 1 (i + 2), contRec coeffs 1 0 (i + 2)))
    ∧ (convergentsFromCoeffs coeffs).length = coeffs.length
    ∧ coeffs.length ≤ (g + 1).toNat :=
  ⟨by simp [convergents, h], convFold_eq coeffs 0 1 1 0,
    convFold_length coeffs 0 1 1 0,
    continued_fraction_length x (g + 1) coeffs err h⟩

/-- Witness for C5 at the pair `649/200` with `max_grade = 10`. -/
theorem c5_convergents_recurrence_witness :
    convergents (.pair 649 200) 10 = .ok (convergentsFromCoeffs [3, 4, 12, 4], false)
    ∧ convergentsFromCoeffs [3, 4, 12, 4] =
        (List.range ([3, 4, 12, 4] : List ℤ).length).map
          (fun i => (contRec [3, 4, 12, 4] 0 1 (i + 2), contRec [3, 4, 12, 4] 1 0 (i + 2)))
    ∧ (convergentsFromCoeffs [3, 4, 12, 4]).length = ([3, 4, 12, 4] : List ℤ).length
    ∧ ([3, 4, 12, 4] : List ℤ).length ≤ ((10 : ℤ) + 1).toNat :=
  c5_convergents_recurrence (.pair 649 200) 10 [3, 4, 12, 4] false (by decide)

/-- C6 is false in its numeric example: `evaluate([1, 2, 3])` is
`1 + 1/(2 + 1/3) = 10/7 = 1.4285714285714286...`, not `1.3333333333333333`
— the difference exceeds any float tolerance. -/
theorem c6_counterexample :
    evaluate [(1 : ℚ), 2, 3] = some (10 / 7)
    ∧ (10 / 7 : ℚ) = 1 + 1 / (2 + 1 / 3)
    ∧ (10 / 7 : ℚ) ≠ 1.3333333333333333
    ∧ ratAbs ((10 / 7 : ℚ) - 1.3333333333333333) > 1 / 100 := by
  refine ⟨by norm_num [evaluate, evalStep, List.foldl], by norm_num, by norm_num, ?_⟩
  norm_num [ratAbs]

/-- C6 amended: `evaluate` returns `0` on the empty sequence and otherwise
folds the accumulator backward from the last coefficient down to the second
(`accumulator := 1 / (coefficient + accumulator)`, starting from `0`) and
adds the first coefficient; in particular `evaluate([]) = 0` and
`evaluate([1, 2, 3]) = 1 + 1/(2 + 1/3) = 10/7` (not `4/3`). -/
theorem c6_evaluate_backward_recurrence :
    evaluate ([] : List ℚ) = some 0
    ∧ (∀ (c : ℚ) (rest : List ℚ),
        evaluate (c :: rest) =
          (rest.foldr
              (fun d acc =>
                acc.bind fun a => if d + a = 0 then none else some (1 / (d + a)))
              (some 0)).map
            (fun a => c + a))
    ∧ evaluate [(1 : ℚ), 2, 3] = some (10 / 7) := by
  refine ⟨rfl, ?_, by norm_num [evaluate, evalStep, List.foldl]⟩
  intro c rest
  rw [evaluate_cons]
  rfl

/-- C7: `evaluate` raises division-by-zero (returns `none`) exactly when some
non-leading coefficient plus the accumulator of the backward recurrence over
the suffix after it is exactly zero; in particular `evaluate([1, 0])` raises. -/
theorem c7_division_by_zero :
    (∀ l : List ℚ, evaluate l = none ↔
      ∃ c0 mid c suf a,
        l = c0 :: (mid ++ c :: suf) ∧ tailEval suf = some a ∧ c + a = 0)
    ∧ evaluate [(1 : ℚ), 0] = none := by
  constructor
  · intro l
    cases l with
    | nil =>
      constructor
      · intro h; exact absurd h (by simp [evaluate])
      · rintro ⟨c0, mid, c, suf, a, heq, -, -⟩
        exact absurd heq (by simp)
    | cons c0 rest =>
      rw [evaluate_cons, Option.map_eq_none', tailEval_none_iff]
      constructor
      · rintro ⟨mid, c, suf, a, heq, hsuf, hz⟩
        exact ⟨c0, mid, c, suf, a, by rw [heq], hsuf, hz⟩
      · rintro ⟨c0', mid, c, suf, a, heq, hsuf, hz⟩
        injection heq with h1 h2
        exact ⟨mid, c, suf, a, h2, hsuf, hz⟩
  · rw [evaluate_cons]
    simp [tailEval, evalStep]

/-- C8: the exact-rational branch uses floor division: `(649, 200)` yields
exactly `[3, 4, 12, 4]` which evaluates back to `649/200 = 3.245`, and
`(-649, 200)` yields exactly `[-4, 1, 3, 12, 4]` — the first term the floor
of `-649/200` and all subsequent terms positive. -/
theorem c8_floor_division_examples :
    continued_fraction (.pair 649 200) 30 = .ok ([3, 4, 12, 4], false)
    ∧ evaluateZ [3, 4, 12, 4] = some ((649 : ℚ) / 200)
    ∧ (649 : ℚ) / 200 = 3.245
    ∧ continued_fraction (.pair (-649) 200) 30 = .ok ([-4, 1, 3, 12, 4], false)
    ∧ (-649 : ℤ).fdiv 200 = -4
    ∧ ratFloor ((-649 : ℚ) / 200) = -4
    ∧ ∀ t ∈ [(1 : ℤ), 3, 12, 4], 0 < t := by
  refine ⟨by decide, ?_, by norm_num, by decide, by decide, ?_, by decide⟩
  · norm_num [evaluateZ, evaluate, evalStep, List.foldl]
  · norm_num [ratFloor, Int.fdiv_eq_ediv]

/-- C9: `arithmetical_expr` returns `""` on the empty sequence, the bare
term string for a singleton, and for longer sequences joins the terms with
`(' + '` or `'+') ++ ('1/(' or '1.0/(')` and appends one closing parenthesis
per term after the first, as on the five reference examples. -/
theorem c9_arithmetical_expr :
    (∀ ws ff : Bool, arithmetical_expr [] ws ff = "")
    ∧ (∀ (c : ℤ) (ws ff : Bool), arithmetical_expr [c] ws ff = toString c)
    ∧ arithmetical_expr [5] true false = "5"
    ∧ arithmetical_expr [1, 2] true false = "1 + 1/(2)"
    ∧ arithmetical_expr [1, 2] false false = "1+1/(2)"
    ∧ arithmetical_expr [1, 2] true true = "1 + 1.0/(2)" := by
  refine ⟨by decide, ?_, by decide, by decide, by decide, by decide⟩
  intro c ws ff
  simp [arithmetical_expr, String.intercalate, String.intercalate.go]

/-- C10: a pair input with denominator `0` is accepted: the generator yields
no coefficients and raises nothing, `convergents` yields nothing, and
`convergent` returns the sentinel `None`. -/
theorem c10_zero_denominator_pair (p L g : ℤ) (hL : 1 ≤ L) (hg : 0 ≤ g) :
    continued_fraction (.pair p 0) L = .ok ([], false)
    ∧ convergents (.pair p 0) g = .ok ([], false)
    ∧ convergent (.pair p 0) g = .ok none := by
  have hg1 : continued_fraction (.pair p 0) (g + 1) = .ok ([], false) := by
    simp [continued_fraction, show ¬ g + 1 ≤ 0 from by omega, intContFrac_den_zero]
  have h2 : convergents (.pair p 0) g = .ok ([], false) := by
    simp [convergents, hg1, convergentsFromCoeffs, convFold]
  refine ⟨?_, h2, by simp [convergent, h2]⟩
  simp [continued_fraction, show ¬ L ≤ 0 from by omega, intContFrac_den_zero]

/-- Witness for C10 at `p = 7`, `maxlen = 5`, `grade = 3`. -/
theorem c10_zero_denominator_pair_witness :
    continued_fraction (.pair 7 0) 5 = .ok ([], false)
    ∧ convergents (.pair 7 0) 3 = .ok ([], false)
    ∧ convergent (.pair 7 0) 3 = .ok none :=
  c10_zero_denominator_pair 7 5 3 (by decide) (by decide)

end Contfrac
